import Mathlib

/-!
Verification of the corpus-modeling core (`corpus.py`).

This file gives a shallow embedding of the statistical corpus-modeling layer
of the repository (`src/corpus.py`): vocabulary building (`Corpus.preprocess`,
`Corpus.get_documents`, `Corpus.__init__`), the windowed co-occurrence /
PPMI construction (`Corpus.collocations`), the Chinese-Restaurant-Process
partition initializer (`Document.init_partition`) and the novelty scorer
(`Word.calculate`), together with theorems settling the specification claims.

Modeling conventions:
* Machine floats are modeled by exact rationals (`ℚ`); `math.log(x, 2)` by
  `Real.logb 2`.
* A text line is modeled as its list of space-separated tokens
  (`Sentence := List String`).  The external tokenizer `nltk.word_tokenize`
  (an out-of-scope collaborator) is modeled as producing exactly those
  tokens, so the frequency count basis and the `s.split(' ')` filtering in
  `Corpus.preprocess` agree, as the spec assumes.
* Python's insertion-ordered `collections.Counter` is modeled as an
  association list `List (String × ℕ)`; `Counter.__iadd__` keeps existing
  keys in place (updating their counts) and appends new keys in order,
  which is exactly Python's documented behavior.
* `random.random()` draws are passed explicitly as a list of rationals.
* Fallible operations (`open` on an unreadable file) return `Except`;
  an out-of-range list index (Python `IndexError`) is modeled as `none`.
-/

set_option maxHeartbeats 1000000

/-! ## Generic list helpers -/

/-- Index of the first occurrence of `w` in `l`; returns `l.length` when `w`
is absent (mirrors CPython's semantics of building the id by enumeration:
the value is only meaningful when `w` is a member). -/
def idxOf (w : String) : List String → ℕ
  | [] => 0
  | x :: xs => if x = w then 0 else idxOf w xs + 1

/-- Pair each element of a list with its position, starting at `i`
(Python's `enumerate`). -/
def withIdx {α : Type} : ℕ → List α → List (ℕ × α)
  | _, [] => []
  | i, x :: xs => (i, x) :: withIdx (i + 1) xs

/-! ## Insertion-ordered counters (Python `collections.Counter`) -/

/-- Insertion-ordered multiset of words: the model of
`collections.Counter` (an insertion-ordered dict from word to count). -/
abbrev Counter := List (String × ℕ)

/-- The keys of a counter, in insertion order (`dict.keys()`). -/
def keys (c : Counter) : List String := c.map Prod.fst

/-- Dictionary lookup with default 0 (`Counter.__getitem__`). -/
def countOf (c : Counter) (w : String) : ℕ :=
  match c with
  | [] => 0
  | (x, n) :: rest => if x = w then n else countOf rest w

/-- First-encounter deduplication helper: keeps the first occurrence of each
word, skipping words already `seen`. -/
def dedupFirstAux (seen : List String) : List String → List String
  | [] => []
  | w :: ws =>
    if w ∈ seen then dedupFirstAux seen ws
    else w :: dedupFirstAux (w :: seen) ws

/-- Deduplicate a token list keeping first occurrences in order: the key
order of `collections.Counter(words)`. -/
def dedupFirst (ws : List String) : List String := dedupFirstAux [] ws

/-- Build a counter from a token list (`collections.Counter(words)`): keys in
first-encounter order, values the occurrence counts. -/
def counterFrom (ws : List String) : Counter :=
  (dedupFirst ws).map (fun w => (w, ws.count w))

/-- In-place counter addition (`Counter.__iadd__`): existing keys keep their
position with summed counts; new keys are appended in order. -/
def iadd (c d : Counter) : Counter :=
  c.map (fun p => (p.1, p.2 + countOf d p.1)) ++
    d.filter (fun p => decide (p.1 ∉ keys c))

/-! ## Preprocessing (`Corpus.preprocess`) -/

/-- A tokenized input line (one sentence per line, tokens in order). -/
abbrev Sentence := List String

/-- Membership test against the removal set built in `Corpus.preprocess`:
the `nltk` English stopword list (modeled as the abstract parameter `stop`)
together with every token whose total count over the call's input is
nonzero and strictly below `self.floor` (= the constructor's `floor + 1`).
Only words that occur at all have an entry in the local
`collections.Counter`, hence the `0 < count` guard. -/
def isRemoved (stop : List String) (floorP : ℕ) (allWords : List String)
    (w : String) : Bool :=
  decide (w ∈ stop) ||
    (decide (0 < allWords.count w) && decide (allWords.count w < floorP))

/-- The Python loop `for i, s in enumerate(sentences): sentences[i] = ...`:
an index-driven in-place update of the list, modeled as a fold over the
index range that reads and rewrites one cell at a time. -/
def pyInPlaceUpdate (f : Sentence → Sentence) (l : List Sentence) :
    List Sentence :=
  (List.range l.length).foldl (fun acc i => acc.set i (f (acc.getD i []))) l

/-- Result of `Corpus.preprocess`: the final value of the caller's sentence
list (mutated in place), the returned list of non-empty filtered sentences,
and the `collections.Counter` added onto `self.word_counts`. -/
structure PreprocessResult where
  mutated : List Sentence
  kept : List Sentence
  delta : Counter
deriving DecidableEq

/-- `Corpus.preprocess`: counts token frequencies over the whole input,
builds the removal set (stopwords plus below-floor words), rewrites each
sentence in place to its filtered token list, accumulates the filtered
counts, and returns the non-empty filtered sentences. -/
def preprocess (stop : List String) (floorP : ℕ) (lines : List Sentence) :
    PreprocessResult :=
  let allWords := lines.flatten
  let f := fun s : Sentence => s.filter (fun w => !isRemoved stop floorP allWords w)
  let mutated := pyInPlaceUpdate f lines
  { mutated := mutated
    kept := mutated.filter (fun s => !s.isEmpty)
    delta := counterFrom mutated.flatten }

/-! ## Documents and the corpus state -/

/-- A document (`Document.__init__`): its position in `self.docs`, its
token-id sequence, and its provenance (`'reference'` or `'focus'`). -/
structure Document where
  idx : ℕ
  words : List ℕ
  category : String
deriving DecidableEq

/-- The mutable state of a `Corpus` during construction: `self.floor`
(already incremented), `self.word_counts` and `self.docs`. -/
structure CorpusState where
  floorP : ℕ
  word_counts : Counter
  docs : List Document
deriving DecidableEq

/-- `self.word_to_idx`: the dict `{word: position}` built by enumerating
`self.word_counts.keys()`; `none` models a `KeyError`. -/
def word_to_idx (wc : Counter) (w : String) : Option ℕ :=
  if w ∈ keys wc then some (idxOf w (keys wc)) else none

/-- `self.idx_to_word`: the list of vocabulary words in id order. -/
def idx_to_word (wc : Counter) : List String := keys wc

/-- The body of `Corpus.get_documents` once the file contents are read:
preprocess the lines, fold the new counts into `self.word_counts`, rebuild
`word_to_idx`, convert each kept sentence to ids and append the resulting
`Document`s to `self.docs`.  Returns the updated state and the kept
sentences (the Python return value). -/
def processCall (stop : List String) (st : CorpusState) (origin : String)
    (lines : List Sentence) : CorpusState × List Sentence :=
  let pre := preprocess stop st.floorP lines
  let wc := iadd st.word_counts pre.delta
  let newDocs := (withIdx 0 pre.kept).map
    (fun p => { idx := p.1
                words := p.2.map (fun w => idxOf w (keys wc))
                category := origin : Document })
  ({ st with word_counts := wc, docs := st.docs ++ newDocs }, pre.kept)

/-- `Corpus.get_documents`: `open(filepath)` either fails (unreadable file,
modeled as `none`: the `IOError` escapes, there is no handler) or yields
the file's lines, which are then processed by `processCall`. -/
def get_documents (stop : List String) (st : CorpusState) (origin : String)
    (contents : Option (List Sentence)) :
    Except String (CorpusState × List Sentence) :=
  match contents with
  | none => .error "IOError: could not read corpus file"
  | some lines => .ok (processCall stop st origin lines)

/-! ## Co-occurrence accumulation (`Corpus.collocations`, counting pass) -/

/-- The increments performed by the windowing pass for one sentence: for
each position `j` holding an in-vocabulary token `k`, the window is the
Python slice `i[max(0, j - W//2) : min(len(i) - 1, j + W//2)]` (end
exclusive), and each in-vocabulary window token `l ≠ k` contributes one
increment of cell `(id(l), id(k))`. -/
def windowPairs (w2i : String → Option ℕ) (W : ℕ) (sent : Sentence) :
    List (ℕ × ℕ) :=
  (List.range sent.length).flatMap (fun j =>
    let k := sent.getD j ""
    match w2i k with
    | none => []
    | some b =>
      let ws := j - W / 2
      let we := min (sent.length - 1) (j + W / 2)
      let occ := (sent.drop ws).take (we - ws)
      occ.filterMap (fun l =>
        if l ≠ k then (w2i l).map (fun a => (a, b)) else none))

/-- All increments over the whole corpus, in program order. -/
def coocPairs (w2i : String → Option ℕ) (W : ℕ)
    (corpus : List Sentence) : List (ℕ × ℕ) :=
  corpus.flatMap (windowPairs w2i W)

/-- The `sparse.dok_matrix` accumulation: start from the all-zero matrix and
perform `cooccurences[a, b] += 1` for each increment in order. -/
def dokFold (pairs : List (ℕ × ℕ)) : ℕ → ℕ → ℕ :=
  pairs.foldl
    (fun m p => fun x y => if x = p.1 ∧ y = p.2 then m x y + 1 else m x y)
    (fun _ _ => 0)

/-- The raw co-occurrence count matrix built by `Corpus.collocations`. -/
def cooccurences (w2i : String → Option ℕ) (W : ℕ)
    (corpus : List Sentence) : ℕ → ℕ → ℕ :=
  dokFold (coocPairs w2i W corpus)

/-! ## The corpus (`Corpus.__init__`) -/

/-- The corpus after construction: `self.floor`, `self.word_counts`,
`self.docs`, `self.vocab_size`, `self.sentences`, and the association
matrix that line 221 stores into the (method-shadowing) attribute
`self.collocations`, with `self.shape`.  Persistence fields (`output`,
`it`) carry no claim content and are omitted. -/
structure Corpus where
  floorP : ℕ
  word_counts : Counter
  docs : List Document
  vocab_size : ℕ
  sentences : List Sentence
  collocations : ℕ → ℕ → ℕ
  shape : ℕ × ℕ

/-- The state set up at the top of `Corpus.__init__` before any file is
processed (`self.floor = floor + 1`, empty counter, no documents). -/
def initState (floor : ℕ) : CorpusState :=
  { floorP := floor + 1, word_counts := [], docs := [] }

/-- The corpus state after `self.get_documents(reference, 'reference')`. -/
def afterReference (stop : List String) (reference : List Sentence)
    (floor : ℕ) : CorpusState × List Sentence :=
  processCall stop (initState floor) "reference" reference

/-- The corpus state after additionally processing the focus corpus. -/
def afterFocus (stop : List String) (reference fl : List Sentence)
    (floor : ℕ) : CorpusState × List Sentence :=
  processCall stop (afterReference stop reference floor).1 "focus" fl

/-- `Corpus.__init__` with readable files: process the reference corpus,
then the focus corpus when given, record `vocab_size = len(self.word_counts)`
and run `self.collocations(self.sentences, window_size)`, whose final
assignments store the raw co-occurrence matrix and its shape. -/
def corpusInit (stop : List String) (reference : List Sentence)
    (focus : Option (List Sentence)) (floor W : ℕ) : Corpus :=
  let p :=
    match focus with
    | none => afterReference stop reference floor
    | some fl =>
      ((afterFocus stop reference fl floor).1,
        (afterReference stop reference floor).2 ++
          (afterFocus stop reference fl floor).2)
  { floorP := p.1.floorP
    word_counts := p.1.word_counts
    docs := p.1.docs
    vocab_size := p.1.word_counts.length
    sentences := p.2
    collocations := cooccurences (word_to_idx p.1.word_counts) W p.2
    shape := (p.1.word_counts.length, p.1.word_counts.length) }

/-! ## PPMI (`Corpus.collocations`, weighting pass) -/

/-- `np.sum(cooccurences)`: the sum of all cells of the
`vocab_size × vocab_size` matrix, as a rational. -/
def coocTotal (c : Corpus) : ℚ :=
  ∑ i ∈ Finset.range c.vocab_size, ∑ j ∈ Finset.range c.vocab_size,
    (c.collocations i j : ℚ)

/-- `self.word_counts[self.idx_to_word[i]]` as a rational. -/
def cellCount (c : Corpus) (i : ℕ) : ℚ :=
  (countOf c.word_counts ((idx_to_word c.word_counts).getD i "") : ℚ)

/-- `joint_probability = frequency / total` for cell `(i, j)`. -/
def cellJoint (c : Corpus) (i j : ℕ) : ℚ :=
  (c.collocations i j : ℚ) / coocTotal c

/-- `probability_i = (frequency * self.word_counts[index_i]) / total`. -/
def cellProbI (c : Corpus) (i j : ℕ) : ℚ :=
  ((c.collocations i j : ℚ) * cellCount c i) / coocTotal c

/-- `probability_j = (frequency * self.word_counts[index_j]) / total`. -/
def cellProbJ (c : Corpus) (i j : ℕ) : ℚ :=
  ((c.collocations i j : ℚ) * cellCount c j) / coocTotal c

/-- The PPMI value the weighting pass writes into the local `ppmi` matrix
at a nonzero cell `(i, j)`: `max(0, log2(joint / (p_i * p_j)))` when the
denominator is positive, else `0`; zero cells are never touched and stay
`0`.  This matrix is computed and then discarded by `Corpus.collocations`
(the function stores the raw count matrix instead). -/
noncomputable def ppmiMatrix (c : Corpus) (i j : ℕ) : ℝ :=
  if c.collocations i j ≠ 0 then
    if 0 < cellProbI c i j * cellProbJ c i j then
      max 0 (Real.logb 2
        ((cellJoint c i j / (cellProbI c i j * cellProbJ c i j) : ℚ) : ℝ))
    else 0
  else 0

/-! ## CRP partition initialization (`Document.init_partition`) -/

/-- The prior list over existing clusters at running count `N`:
`len(self.partition[j]) / (N + alpha - 1)` for each cluster in order. -/
def priorList (alpha : ℚ) (partition : List (List ℕ)) (N : ℕ) : List ℚ :=
  partition.map (fun cl => (cl.length : ℚ) / ((N : ℚ) + alpha - 1))

/-- The index of the first position at which the running cumulative sum of
the list, started at `curr`, strictly exceeds `r` (the `for j, p in
enumerate(prior)` walk with its `break`); `none` when the walk falls off
the end without breaking. -/
def firstExceed (r : ℚ) : ℚ → List ℚ → Option ℕ
  | _, [] => none
  | curr, p :: ps =>
    if r < curr + p then some 0 else (firstExceed r (curr + p) ps).map (· + 1)

/-- One iteration of the `for i in self.words` loop of
`Document.init_partition`, at running count `N`, assigning token `i = tok`
using the uniform draw `r = random.random()`: open a new cluster when `r`
exceeds the total existing prior mass, otherwise walk the extended prior
list and append the token to the cluster where the cumulative mass first
exceeds `r`.  `none` models the `IndexError` raised when that walk breaks
at the appended new-cluster slot, whose index is `len(self.partition)`. -/
def crpStep (alpha : ℚ) (partition : List (List ℕ)) (N : ℕ) (tok : ℕ)
    (r : ℚ) : Option (List (List ℕ)) :=
  let prior := priorList alpha partition N
  let nw := alpha / ((N : ℚ) + alpha - 1)
  if prior.sum < r then some (partition ++ [[tok]])
  else
    match firstExceed r 0 (prior ++ [nw]) with
    | none => none
    | some j =>
      if h : j < partition.length then
        some (partition.set j (partition[j] ++ [tok]))
      else none

/-- `Document.init_partition`: process the document's tokens in order with
the running count `N` (incremented before each decision), consuming one
uniform draw per token.  `none` models an uncaught `IndexError`; a draw
list shorter than the document also yields `none` (the model requires one
draw per token). -/
def init_partition (alpha : ℚ) :
    List (List ℕ) → ℕ → List ℕ → List ℚ → Option (List (List ℕ))
  | part, _, [], _ => some part
  | part, N, tok :: toks, r :: rs =>
    match crpStep alpha part (N + 1) tok r with
    | none => none
    | some p => init_partition alpha p (N + 1) toks rs
  | _, _, _ :: _, [] => none

/-- The multiset of all tokens placed in the partition's clusters. -/
def clustersSum (partition : List (List ℕ)) : Multiset ℕ :=
  (partition.map (fun cl => (cl : Multiset ℕ))).sum

/-- A draw sequence for a document is good when each draw lies in `[0, 1)`
and differs from the total existing prior mass at its decision point (the
boundary at which the assignment walk overruns the partition). -/
def goodDraws (alpha : ℚ) :
    List (List ℕ) → ℕ → List ℕ → List ℚ → Bool
  | _, _, [], [] => true
  | part, N, tok :: toks, r :: rs =>
    (decide ((0 : ℚ) ≤ r) && decide (r < 1) &&
      decide (r ≠ (priorList alpha part (N + 1)).sum)) &&
    goodDraws alpha ((crpStep alpha part (N + 1) tok r).getD part) (N + 1)
      toks rs
  | _, _, _ :: _, [] => false
  | _, _, [], _ :: _ => false

/-! ## Word sense scoring (`Word.calculate`) -/

/-- A word and its per-sense occurrence counts: one row per sense, columns
(reference count, focus count) (`Word.__init__`). -/
structure Word where
  word : String
  idx : ℕ
  senses : List (ℚ × ℚ)

/-- Sorted deduplication, the behavior of `np.unique` on an array. -/
def npUnique (l : List ℕ) : List ℕ :=
  (l.insertionSort (· ≤ ·)).dedup

/-- The `(row, column)` coordinates of the nonzero entries of the senses
matrix in row-major order (`np.nonzero`). -/
def nonzeroCoords (senses : List (ℚ × ℚ)) : List (ℕ × ℕ) :=
  (withIdx 0 senses).flatMap (fun p =>
    (if p.2.1 ≠ 0 then [(p.1, 0)] else []) ++
      (if p.2.2 ≠ 0 then [(p.1, 1)] else []))

/-- The indices of the senses rows that are not all-zero, in order: the
rows `Word.calculate` retains, and the sense ids its result should refer
to. -/
def nonzeroRows (senses : List (ℚ × ℚ)) : List ℕ :=
  ((withIdx 0 senses).filter (fun p => !(p.2.1 = 0 && p.2.2 = 0))).map
    Prod.fst

/-- Index of the first occurrence of a rational in a list (`np.argmax`
returns the first position attaining the maximum). -/
def firstIdxOf (x : ℚ) : List ℚ → ℕ
  | [] => 0
  | y :: ys => if y = x then 0 else firstIdxOf x ys + 1

/-- `Word.calculate`: `indices = np.unique(np.nonzero(self.senses))` (the
sorted union of the row *and column* indices of nonzero entries), strip
all-zero rows, normalize each remaining row by its own sum, take
per-row novelty `focus − reference`, and return the maximum novelty with
`indices[argmax]`.  `none` models the numpy error on an all-zero matrix
(`max` of an empty array). -/
def Word.calculate (w : Word) : Option (ℚ × ℕ) :=
  let indices := npUnique ((nonzeroCoords w.senses).map Prod.fst ++
    (nonzeroCoords w.senses).map Prod.snd)
  let stripped := w.senses.filter (fun p => !(p.1 = 0 && p.2 = 0))
  let novelty := stripped.map
    (fun p => p.2 / (p.1 + p.2) - p.1 / (p.1 + p.2))
  match novelty with
  | [] => none
  | n0 :: rest =>
    let m := rest.foldl max n0
    some (m, indices.getD (firstIdxOf m novelty) 0)

/-- Every token id stored in a document list is the id of some vocabulary
word under the given counter (used as the invariant threaded through the
corpus construction). -/
def DocsOK (wc : Counter) (docs : List Document) : Prop :=
  ∀ d ∈ docs, ∀ id ∈ d.words, ∃ w, w ∈ keys wc ∧ idxOf w (keys wc) = id

/-! ## Supporting lemmas -/

theorem idxOf_lt_length {w : String} {l : List String} (h : w ∈ l) :
    idxOf w l < l.length := by
  induction l with
  | nil => cases h
  | cons x xs ih =>
    by_cases hx : x = w
    · simp [idxOf, hx]
    · rcases List.mem_cons.mp h with h | h
      · exact absurd h.symm hx
      · simpa [idxOf, hx] using ih h

theorem idxOf_append_left {w : String} {l : List String} (l' : List String)
    (h : w ∈ l) : idxOf w (l ++ l') = idxOf w l := by
  induction l with
  | nil => cases h
  | cons x xs ih =>
    by_cases hx : x = w
    · simp [idxOf, hx]
    · rcases List.mem_cons.mp h with h | h
      · exact absurd h.symm hx
      · simp [idxOf, hx, ih h]

theorem idxOf_append_right {w : String} {l : List String} (l' : List String)
    (h : w ∉ l) : idxOf w (l ++ l') = l.length + idxOf w l' := by
  induction l with
  | nil => simp
  | cons x xs ih =>
    have hx : x ≠ w := fun e => h (e ▸ List.mem_cons_self x xs)
    have hxs : w ∉ xs := fun e => h (List.mem_cons_of_mem _ e)
    simp [idxOf, hx, ih hxs]
    omega

theorem getD_idxOf {w : String} {l : List String} (h : w ∈ l) :
    l.getD (idxOf w l) "" = w := by
  induction l with
  | nil => cases h
  | cons x xs ih =>
    by_cases hx : x = w
    · simp [idxOf, hx]
    · rcases List.mem_cons.mp h with h | h
      · exact absurd h.symm hx
      · simpa [idxOf, hx] using ih h

theorem getD_mem {l : List String} {k : ℕ} (hk : k < l.length) :
    l.getD k "" ∈ l := by
  induction l generalizing k with
  | nil => simp at hk
  | cons x xs ih =>
    cases k with
    | zero => exact List.mem_cons_self _ _
    | succ k =>
      have hk' : k < xs.length := by simpa using hk
      exact List.mem_cons_of_mem _ (ih hk')

theorem idxOf_getD {l : List String} (hnd : l.Nodup) {k : ℕ}
    (hk : k < l.length) : idxOf (l.getD k "") l = k := by
  induction l generalizing k with
  | nil => simp at hk
  | cons x xs ih =>
    rcases List.nodup_cons.mp hnd with ⟨hx, hxs⟩
    cases k with
    | zero => simp [idxOf]
    | succ k =>
      have hk' : k < xs.length := by simpa using hk
      have hmem : xs.getD k "" ∈ xs := getD_mem hk'
      have hne : x ≠ xs.getD k "" := fun e => hx (e ▸ hmem)
      rw [List.getD_cons_succ]
      show idxOf (xs.getD k "") (x :: xs) = k + 1
      rw [show idxOf (xs.getD k "") (x :: xs)
            = if x = xs.getD k "" then 0 else idxOf (xs.getD k "") xs + 1 from rfl,
        if_neg hne, ih hxs hk']

theorem mem_dedupFirstAux {x : String} :
    ∀ {seen ws : List String}, x ∈ dedupFirstAux seen ws ↔ x ∈ ws ∧ x ∉ seen := by
  intro seen ws
  induction ws generalizing seen with
  | nil => simp [dedupFirstAux]
  | cons w ws ih =>
    by_cases hw : w ∈ seen
    · simp only [dedupFirstAux, if_pos hw, ih]
      constructor
      · rintro ⟨h1, h2⟩; exact ⟨List.mem_cons_of_mem _ h1, h2⟩
      · rintro ⟨h1, h2⟩
        rcases List.mem_cons.mp h1 with h | h
        · exact absurd (h ▸ hw) h2
        · exact ⟨h, h2⟩
    · simp only [dedupFirstAux, if_neg hw]
      constructor
      · intro h
        rcases List.mem_cons.mp h with h | h
        · subst h; exact ⟨List.mem_cons_self _ _, hw⟩
        · rcases ih.mp h with ⟨h1, h2⟩
          refine ⟨List.mem_cons_of_mem _ h1, fun hx => h2 (List.mem_cons_of_mem _ hx)⟩
      · rintro ⟨h1, h2⟩
        rcases List.mem_cons.mp h1 with h | h
        · subst h; exact List.mem_cons_self _ _
        · by_cases hxw : x = w
          · subst hxw; exact List.mem_cons_self _ _
          · exact List.mem_cons_of_mem _ (ih.mpr ⟨h, by
              intro hx
              rcases List.mem_cons.mp hx with h' | h'
              · exact hxw h'
              · exact h2 h'⟩)

theorem mem_dedupFirst {x : String} {ws : List String} :
    x ∈ dedupFirst ws ↔ x ∈ ws := by
  simp [dedupFirst, mem_dedupFirstAux]

theorem nodup_dedupFirstAux :
    ∀ {seen ws : List String}, (dedupFirstAux seen ws).Nodup := by
  intro seen ws
  induction ws generalizing seen with
  | nil => simp [dedupFirstAux]
  | cons w ws ih =>
    by_cases hw : w ∈ seen
    · simpa [dedupFirstAux, if_pos hw] using ih
    · simp only [dedupFirstAux, if_neg hw]
      refine List.nodup_cons.mpr ⟨?_, ih⟩
      intro hmem
      exact (mem_dedupFirstAux.mp hmem).2 (List.mem_cons_self _ _)

theorem nodup_dedupFirst {ws : List String} : (dedupFirst ws).Nodup :=
  nodup_dedupFirstAux

theorem map_fst_pair {g : String → ℕ} (l : List String) :
    List.map (Prod.fst ∘ fun w => (w, g w)) l = l := by
  induction l with
  | nil => rfl
  | cons x xs ih => simp [Function.comp, ih]

theorem keys_counterFrom (ws : List String) :
    keys (counterFrom ws) = dedupFirst ws := by
  unfold keys counterFrom
  rw [List.map_map, map_fst_pair]

theorem map_fst_filter_fst (c : List String) (d : Counter) :
    List.map Prod.fst (d.filter (fun p => decide (p.1 ∉ c))) =
      (List.map Prod.fst d).filter (fun w => decide (w ∉ c)) := by
  induction d with
  | nil => rfl
  | cons p ps ih =>
    by_cases hp : p.1 ∈ c
    · simpa [List.filter_cons, hp] using ih
    · simpa [List.filter_cons, hp] using ih

theorem keys_iadd (c d : Counter) :
    keys (iadd c d) = keys c ++ (keys d).filter (fun w => decide (w ∉ keys c)) := by
  unfold iadd keys
  rw [List.map_append, List.map_map]
  rw [map_fst_filter_fst]
  congr 1

theorem mem_keys_iadd {w : String} {c d : Counter} :
    w ∈ keys (iadd c d) ↔ w ∈ keys c ∨ w ∈ keys d := by
  rw [keys_iadd]
  simp only [List.mem_append, List.mem_filter, decide_eq_true_eq]
  constructor
  · rintro (h | ⟨h, _⟩)
    · exact Or.inl h
    · exact Or.inr h
  · rintro (h | h)
    · exact Or.inl h
    · by_cases hc : w ∈ keys c
      · exact Or.inl hc
      · exact Or.inr ⟨h, hc⟩

theorem nodup_keys_iadd {c d : Counter} (hc : (keys c).Nodup)
    (hd : (keys d).Nodup) : (keys (iadd c d)).Nodup := by
  rw [keys_iadd]
  refine List.Nodup.append hc (List.Nodup.filter _ hd) ?_
  intro w hw hw'
  rcases List.mem_filter.mp hw' with ⟨_, hnot⟩
  exact (decide_eq_true_eq.mp hnot) hw

theorem iadd_nil (c : Counter) : iadd c [] = c := by
  unfold iadd
  simp [countOf]

theorem getD_append_length (pre : List Sentence) (s : Sentence)
    (rest : List Sentence) : (pre ++ s :: rest).getD pre.length [] = s := by
  induction pre with
  | nil => rfl
  | cons x xs ih => simpa using ih

theorem set_append_length (pre : List Sentence) (s x : Sentence)
    (rest : List Sentence) :
    (pre ++ s :: rest).set pre.length x = pre ++ x :: rest := by
  induction pre with
  | nil => rfl
  | cons y ys ih => simp [List.set, ih]

theorem pyInPlaceUpdate_aux (f : Sentence → Sentence) :
    ∀ (suf pre : List Sentence),
      (List.range' pre.length suf.length).foldl
          (fun acc i => acc.set i (f (acc.getD i []))) (pre ++ suf) =
        pre ++ suf.map f := by
  intro suf
  induction suf with
  | nil => intro pre; simp
  | cons s rest ih =>
    intro pre
    simp only [List.length_cons]
    rw [List.range'_succ, List.foldl_cons]
    rw [getD_append_length, set_append_length]
    have h1 : pre.length + 1 = (pre ++ [f s]).length := by simp
    have h2 : pre ++ f s :: rest = (pre ++ [f s]) ++ rest := by simp
    rw [h2, h1, ih (pre ++ [f s])]
    simp

/-- The in-place update loop is extensionally the per-sentence map. -/
theorem pyInPlaceUpdate_eq_map (f : Sentence → Sentence)
    (l : List Sentence) : pyInPlaceUpdate f l = l.map f := by
  unfold pyInPlaceUpdate
  rw [List.range_eq_range']
  simpa using pyInPlaceUpdate_aux f l []

theorem dokFold_step_count (pairs : List (ℕ × ℕ)) :
    ∀ (m : ℕ → ℕ → ℕ) (a b : ℕ),
      (pairs.foldl
          (fun m p => fun x y => if x = p.1 ∧ y = p.2 then m x y + 1 else m x y)
          m) a b = m a b + pairs.count (a, b) := by
  induction pairs with
  | nil => intro m a b; simp
  | cons p ps ih =>
    intro m a b
    rw [List.foldl_cons, ih, List.count_cons]
    by_cases hp : (a, b) = p
    · have : a = p.1 ∧ b = p.2 := by
        constructor
        · exact congrArg Prod.fst hp
        · exact congrArg Prod.snd hp
      simp [hp, this]
      omega
    · have : ¬(a = p.1 ∧ b = p.2) := by
        rintro ⟨h1, h2⟩
        exact hp (Prod.ext h1 h2)
      have hbeq : ¬(p == (a, b)) = true := by
        simp only [beq_iff_eq]
        intro e
        exact hp (e.symm)
      simp [this, hbeq]

/-- The accumulated matrix counts exactly the increments of each cell. -/
theorem cooccurences_count (w2i : String → Option ℕ) (W : ℕ)
    (corpus : List Sentence) (a b : ℕ) :
    cooccurences w2i W corpus a b = (coocPairs w2i W corpus).count (a, b) := by
  unfold cooccurences dokFold
  rw [dokFold_step_count]
  omega

theorem mem_withIdx {α : Type} {p : ℕ × α} :
    ∀ {i : ℕ} {l : List α}, p ∈ withIdx i l → p.2 ∈ l := by
  intro i l
  induction l generalizing i with
  | nil => intro h; cases h
  | cons x xs ih =>
    intro h
    rcases List.mem_cons.mp h with h | h
    · subst h; exact List.mem_cons_self _ _
    · exact List.mem_cons_of_mem _ (ih h)

/-- The matrix stored by `Corpus.collocations` is the raw windowed count
accumulation over the corpus's own sentences and vocabulary. -/
theorem corpus_collocations_eq (stop : List String) (reference : List Sentence)
    (focus : Option (List Sentence)) (floor W : ℕ) :
    (corpusInit stop reference focus floor W).collocations =
      cooccurences
        (word_to_idx (corpusInit stop reference focus floor W).word_counts) W
        (corpusInit stop reference focus floor W).sentences := by
  cases focus <;> rfl

theorem windowPairs_three (A B C : String) (a b c W : ℕ)
    (w2i : String → Option ℕ)
    (hAB : A ≠ B) (hAC : A ≠ C) (hBC : B ≠ C)
    (hA : w2i A = some a) (hB : w2i B = some b) (hC : w2i C = some c)
    (hW : 4 ≤ W) :
    windowPairs w2i W [A, B, C] = [(b, a), (a, b), (a, c), (b, c)] := by
  have h2 : 2 ≤ W / 2 := by omega
  have e0 : (0 : ℕ) - W / 2 = 0 := by omega
  have e1 : (1 : ℕ) - W / 2 = 0 := by omega
  have e2 : (2 : ℕ) - W / 2 = 0 := by omega
  have m0 : min (3 - 1) (0 + W / 2) = 2 := by omega
  have m1 : min (3 - 1) (1 + W / 2) = 2 := by omega
  have m2 : min (3 - 1) (2 + W / 2) = 2 := by omega
  have hBA : B ≠ A := fun h => hAB h.symm
  unfold windowPairs
  rw [show ([A, B, C] : List String).length = 3 from rfl,
    show List.range 3 = [0, 1, 2] from rfl]
  simp only [List.flatMap_cons, List.flatMap_nil, List.append_nil,
    List.getD_cons_zero, List.getD_cons_succ]
  rw [hA, hB, hC]
  simp only [e0, e1, e2, m0, m1, m2]
  simp only [List.drop_zero, Nat.sub_zero,
    show ([A, B, C] : List String).take 2 = [A, B] from rfl]
  simp only [List.filterMap_cons, List.filterMap_nil]
  simp [hA, hB, hAB, hBA, hAC, hBC]

/-! ## Claim theorems -/

/-- Claim C10: `Corpus.preprocess` mutates the sentence list it receives in
place — after the call, every element of the caller's list has been
replaced by its filtered token list — while the returned value is a
separate list containing exactly the sentences whose filtered token list is
non-empty. -/
theorem preprocess_inplace_update_and_return (stop : List String)
    (floorP : ℕ) (lines : List Sentence) :
    (preprocess stop floorP lines).mutated =
      lines.map (fun s =>
        s.filter (fun w => !isRemoved stop floorP lines.flatten w)) ∧
    (preprocess stop floorP lines).kept =
      (preprocess stop floorP lines).mutated.filter (fun s => !s.isEmpty) := by
  exact ⟨pyInPlaceUpdate_eq_map _ _, rfl⟩

/-- Claim C2: after `Corpus.collocations` runs, the association matrix
stored in the (method-shadowing) attribute `self.collocations` equals the
raw co-occurrence count matrix accumulated in the windowing pass: each cell
holds exactly the number of windowed context/center increments performed
for it.  The PPMI matrix (`ppmiMatrix` in this development) is a local
value of the function: it is not stored on the corpus (the `Corpus`
structure holds no other matrix) and the method returns `None`. -/
theorem collocations_attr_is_raw_counts (stop : List String)
    (reference : List Sentence) (focus : Option (List Sentence))
    (floor W a b : ℕ) :
    (corpusInit stop reference focus floor W).collocations a b =
      (coocPairs
        (word_to_idx (corpusInit stop reference focus floor W).word_counts)
        W (corpusInit stop reference focus floor W).sentences).count (a, b) := by
  rw [corpus_collocations_eq]
  exact cooccurences_count _ _ _ a b

/-- Claim C8 (counterexample): an empty corpus file does not fail fast.
`get_documents` on a readable empty file returns successfully with an
unchanged state — an empty document list and an empty vocabulary — instead
of surfacing an error as the claim requires. -/
theorem empty_file_accepted_without_error :
    get_documents [] (initState 0) "reference" (some []) =
      .ok (initState 0, []) := rfl

/-- Claim C8 (amended): an unreadable file fails fast — the `IOError` from
`open` is surfaced, with no local recovery — but an empty file is accepted
silently: the call returns normally, adding no documents and no vocabulary
entries. -/
theorem get_documents_error_cases (stop : List String) (st : CorpusState)
    (origin : String) :
    get_documents stop st origin none =
      .error "IOError: could not read corpus file" ∧
    get_documents stop st origin (some []) = .ok (st, []) := by
  refine ⟨rfl, ?_⟩
  show Except.ok (processCall stop st origin []) = Except.ok (st, [])
  unfold processCall preprocess
  simp only [pyInPlaceUpdate, List.length_nil, List.range_zero,
    List.foldl_nil, List.flatten_nil, List.filter_nil]
  rw [show counterFrom [] = [] from rfl, iadd_nil]
  simp [withIdx]

/-- Claim C3 (code bug): `Word.calculate` on the senses matrix
`[[0,0],[0,0],[5,3]]` — where the only observed sense is row 2, whose
novelty `3/8 − 5/8 = −1/4` is therefore the maximum — returns the correct
maximum but pairs it with index 0, not the sense index 2.  The cause is
`indices = np.unique(np.nonzero(self.senses))`, which mixes the *column*
indices 0 and 1 of nonzero cells into the sorted index pool `[0, 1, 2]`
before indexing it with `argmax`; the docstring ("corresponding index")
and the spec require the sense row index. -/
theorem calculate_misreports_sense_index :
    Word.calculate ⟨"w", 0, [(0, 0), (0, 0), (5, 3)]⟩ = some (-(1 / 4), 0) ∧
    nonzeroRows [(0, 0), (0, 0), (5, 3)] = [2] ∧ (0 : ℕ) ≠ 2 := by
  refine ⟨?_, ?_, by decide⟩
  · norm_num [Word.calculate, npUnique, nonzeroCoords, withIdx, firstIdxOf]
  · norm_num [nonzeroRows, withIdx]

/-- Claim C4 (counterexample): with window size `W = 2` (which satisfies
the claim's premise `W ≥ 2`), the single-sentence corpus `[A, B, C]` never
increments cell `(id(B), id(A))`: the Python slice
`i[max(0, j - W//2) : min(len(i) - 1, j + W//2)]` is end-exclusive, so from
center `A` (position 0) the window `i[0:1]` contains only `A` itself and
the increment the claim requires does not happen — the cell stays 0, not
1. -/
theorem cooc_window2_cell_not_incremented :
    (2 : ℕ) ≤ 2 ∧
    cooccurences
      (fun w => if w = "A" then some 0 else if w = "B" then some 1
        else if w = "C" then some 2 else none) 2 [["A", "B", "C"]] 1 0 = 0 ∧
    (0 : ℕ) ≠ 1 := by
  refine ⟨by decide, by decide, by decide⟩

/-- Claim C4 (amended): for a single-sentence corpus of three distinct
in-vocabulary tokens `[A, B, C]` and any window size `W ≥ 4`, the
co-occurrence accumulation increments cell `(id(B), id(A))` exactly once
and cell `(id(A), id(B))` exactly once, and never increments the diagonal
cell `(id(A), id(A))`. -/
theorem cooc_window_ge4_cells (A B C : String) (a b c W : ℕ)
    (w2i : String → Option ℕ)
    (hAB : A ≠ B) (hAC : A ≠ C) (hBC : B ≠ C)
    (hab : a ≠ b) (hac : a ≠ c) (hbc : b ≠ c)
    (hA : w2i A = some a) (hB : w2i B = some b) (hC : w2i C = some c)
    (hW : 4 ≤ W) :
    cooccurences w2i W [[A, B, C]] b a = 1 ∧
    cooccurences w2i W [[A, B, C]] a b = 1 ∧
    cooccurences w2i W [[A, B, C]] a a = 0 := by
  have hwp := windowPairs_three A B C a b c W w2i hAB hAC hBC hA hB hC hW
  have hcp : coocPairs w2i W [[A, B, C]] = [(b, a), (a, b), (a, c), (b, c)] := by
    unfold coocPairs
    simp [hwp]
  have hba : b ≠ a := fun h => hab h.symm
  have hca : c ≠ a := fun h => hac h.symm
  have hcb : c ≠ b := fun h => hbc h.symm
  refine ⟨?_, ?_, ?_⟩ <;>
    rw [cooccurences_count, hcp] <;>
    simp [List.count_cons, Prod.ext_iff, hab, hac, hbc, hba, hca, hcb]

/-- Concrete instantiation of `cooc_window_ge4_cells` at `W = 4` with the
vocabulary `A ↦ 0`, `B ↦ 1`, `C ↦ 2`, discharging every hypothesis. -/
theorem cooc_window_ge4_cells_witness :
    (4 : ℕ) ≤ 4 ∧
    (cooccurences
        (fun w => if w = "A" then some 0 else if w = "B" then some 1
          else if w = "C" then some 2 else none) 4 [["A", "B", "C"]] 1 0 = 1 ∧
      cooccurences
        (fun w => if w = "A" then some 0 else if w = "B" then some 1
          else if w = "C" then some 2 else none) 4 [["A", "B", "C"]] 0 1 = 1 ∧
      cooccurences
        (fun w => if w = "A" then some 0 else if w = "B" then some 1
          else if w = "C" then some 2 else none) 4 [["A", "B", "C"]] 0 0 = 0) :=
  ⟨by decide,
    cooc_window_ge4_cells "A" "B" "C" 0 1 2 4 _
      (by decide) (by decide) (by decide) (by decide) (by decide) (by decide)
      (by decide) (by decide) (by decide) (by decide)⟩

theorem keys_processCall_mem {stop : List String} {st : CorpusState}
    {origin : String} {lines : List Sentence} {w : String}
    (h : w ∈ keys (processCall stop st origin lines).1.word_counts) :
    w ∈ keys st.word_counts ∨ st.floorP ≤ lines.flatten.count w := by
  have h2 : w ∈ keys (iadd st.word_counts
      (preprocess stop st.floorP lines).delta) := h
  rcases mem_keys_iadd.mp h2 with h3 | h3
  · exact Or.inl h3
  · right
    have h4 : w ∈ (preprocess stop st.floorP lines).mutated.flatten := by
      have := keys_counterFrom (preprocess stop st.floorP lines).mutated.flatten
      rw [show (preprocess stop st.floorP lines).delta =
          counterFrom (preprocess stop st.floorP lines).mutated.flatten from rfl,
        keys_counterFrom] at h3
      exact mem_dedupFirst.mp h3
    rw [show (preprocess stop st.floorP lines).mutated =
        pyInPlaceUpdate
          (fun s => s.filter
            (fun x => !isRemoved stop st.floorP lines.flatten x)) lines from rfl,
      pyInPlaceUpdate_eq_map] at h4
    rcases List.mem_flatten.mp h4 with ⟨s', hs', hw'⟩
    rcases List.mem_map.mp hs' with ⟨s, hs, rfl⟩
    have hw2 := List.mem_filter.mp hw'
    have hwmem : w ∈ lines.flatten := List.mem_flatten.mpr ⟨s, hs, hw2.1⟩
    have hcount : 0 < lines.flatten.count w := List.count_pos_iff.mpr hwmem
    have hrem := hw2.2
    simp only [isRemoved, Bool.not_eq_true', Bool.or_eq_false_iff,
      Bool.and_eq_false_iff, decide_eq_false_iff_not, not_lt] at hrem
    rcases hrem.2 with h5 | h5
    · omega
    · exact h5

/-- Claim C5: a word whose total occurrence count across the input corpora
is strictly less than `floor + 1` is placed in the removal set of every
`preprocess` call (its per-call count is at most its total), so it never
survives filtering and never becomes a key of `word_to_idx`. -/
theorem below_floor_word_not_in_vocab (stop : List String)
    (reference : List Sentence) (focus : Option (List Sentence))
    (floor W : ℕ) (w : String)
    (h : (reference.flatten ++ (focus.getD []).flatten).count w < floor + 1) :
    word_to_idx (corpusInit stop reference focus floor W).word_counts w
      = none := by
  rw [List.count_append] at h
  have hnot : w ∉ keys (corpusInit stop reference focus floor W).word_counts := by
    cases focus with
    | none =>
      intro hmem
      rcases @keys_processCall_mem stop (initState floor) "reference"
          reference w hmem with h0 | h0
      · simp [initState, keys] at h0
      · have : (initState floor).floorP = floor + 1 := rfl
        omega
    | some fl =>
      intro hmem
      rcases @keys_processCall_mem stop (afterReference stop reference floor).1
          "focus" fl w hmem with h0 | h0
      · rcases @keys_processCall_mem stop (initState floor) "reference"
            reference w h0 with h1 | h1
        · simp [initState, keys] at h1
        · have : (initState floor).floorP = floor + 1 := rfl
          omega
      · have : (afterReference stop reference floor).1.floorP = floor + 1 := rfl
        simp only [Option.getD_some] at h
        omega
  unfold word_to_idx
  rw [if_neg hnot]

/-- Concrete instantiation of `below_floor_word_not_in_vocab`: with
`floor = 1`, the word `"b"` occurs once (fewer than `floor + 1 = 2` times)
and is absent from `word_to_idx` after construction. -/
theorem below_floor_word_not_in_vocab_witness :
    (([["a", "a", "b"]] : List Sentence).flatten ++
        ((none : Option (List Sentence)).getD []).flatten).count "b" < 1 + 1 ∧
    word_to_idx (corpusInit [] [["a", "a", "b"]] none 1 4).word_counts "b"
      = none :=
  ⟨by decide,
    below_floor_word_not_in_vocab [] [["a", "a", "b"]] none 1 4 "b" (by decide)⟩

theorem keys_processCall_eq (stop : List String) (st : CorpusState)
    (origin : String) (lines : List Sentence) :
    keys (processCall stop st origin lines).1.word_counts =
      keys st.word_counts ++
        (keys (preprocess stop st.floorP lines).delta).filter
          (fun w => decide (w ∉ keys st.word_counts)) :=
  keys_iadd _ _

theorem nodup_keys_processCall {stop : List String} {st : CorpusState}
    {origin : String} {lines : List Sentence}
    (h : (keys st.word_counts).Nodup) :
    (keys (processCall stop st origin lines).1.word_counts).Nodup := by
  have hd : (keys (preprocess stop st.floorP lines).delta).Nodup := by
    rw [show (preprocess stop st.floorP lines).delta =
        counterFrom (preprocess stop st.floorP lines).mutated.flatten from rfl,
      keys_counterFrom]
    exact nodup_dedupFirst
  exact nodup_keys_iadd h hd

theorem docsOK_processCall {stop : List String} {st : CorpusState}
    {origin : String} {lines : List Sentence}
    (h : DocsOK st.word_counts st.docs) :
    DocsOK (processCall stop st origin lines).1.word_counts
      (processCall stop st origin lines).1.docs := by
  intro d hd id hid
  have hkeys := keys_processCall_eq stop st origin lines
  rcases List.mem_append.mp hd with h1 | h1
  · rcases h d h1 id hid with ⟨w, hw, hidx⟩
    refine ⟨w, ?_, ?_⟩
    · rw [hkeys]
      exact List.mem_append.mpr (Or.inl hw)
    · rw [hkeys, idxOf_append_left _ hw]
      exact hidx
  · rcases List.mem_map.mp h1 with ⟨p, hp, rfl⟩
    rcases List.mem_map.mp hid with ⟨w, hwmem, rfl⟩
    refine ⟨w, ?_, rfl⟩
    have hkept : p.2 ∈ (preprocess stop st.floorP lines).kept := mem_withIdx hp
    have hmut : p.2 ∈ (preprocess stop st.floorP lines).mutated :=
      (List.mem_filter.mp hkept).1
    have hflat : w ∈ (preprocess stop st.floorP lines).mutated.flatten :=
      List.mem_flatten.mpr ⟨p.2, hmut, hwmem⟩
    have hdelta : w ∈ keys (preprocess stop st.floorP lines).delta := by
      rw [show (preprocess stop st.floorP lines).delta =
          counterFrom (preprocess stop st.floorP lines).mutated.flatten from rfl,
        keys_counterFrom]
      exact mem_dedupFirst.mpr hflat
    exact mem_keys_iadd.mpr (Or.inr hdelta)

theorem docsOK_corpusInit (stop : List String) (reference : List Sentence)
    (focus : Option (List Sentence)) (floor W : ℕ) :
    DocsOK (corpusInit stop reference focus floor W).word_counts
      (corpusInit stop reference focus floor W).docs := by
  have h0 : DocsOK (initState floor).word_counts (initState floor).docs := by
    intro d hd
    cases hd
  cases focus with
  | none => exact docsOK_processCall h0
  | some fl => exact docsOK_processCall (docsOK_processCall h0)

theorem nodup_keys_corpusInit (stop : List String) (reference : List Sentence)
    (focus : Option (List Sentence)) (floor W : ℕ) :
    (keys (corpusInit stop reference focus floor W).word_counts).Nodup := by
  have h0 : (keys (initState floor).word_counts).Nodup := List.nodup_nil
  cases focus with
  | none =>
    exact @nodup_keys_processCall stop (initState floor) "reference"
      reference h0
  | some fl =>
    exact @nodup_keys_processCall stop (afterReference stop reference floor).1
      "focus" fl
      (@nodup_keys_processCall stop (initState floor) "reference" reference h0)

theorem keys_length_vocab_size (stop : List String) (reference : List Sentence)
    (focus : Option (List Sentence)) (floor W : ℕ) :
    (keys (corpusInit stop reference focus floor W).word_counts).length =
      (corpusInit stop reference focus floor W).vocab_size := by
  cases focus <;> exact List.length_map _ _

/-- Claim C6: after construction, `word_to_idx` and `idx_to_word` are
mutually inverse mappings of the common size `vocab_size`; the assigned
ids are exactly the dense range `[0, vocab_size)`; and every token id in
any document's `words` sequence is a valid id with a corresponding
vocabulary entry. -/
theorem vocab_bijective_dense_ids (stop : List String)
    (reference : List Sentence) (focus : Option (List Sentence))
    (floor W : ℕ) :
    ((keys (corpusInit stop reference focus floor W).word_counts).Nodup ∧
      (idx_to_word (corpusInit stop reference focus floor W).word_counts).length
        = (corpusInit stop reference focus floor W).vocab_size) ∧
    (∀ w k,
      word_to_idx (corpusInit stop reference focus floor W).word_counts w
          = some k →
        k < (corpusInit stop reference focus floor W).vocab_size ∧
        (idx_to_word
            (corpusInit stop reference focus floor W).word_counts).getD k ""
          = w) ∧
    (∀ k, k < (corpusInit stop reference focus floor W).vocab_size →
      word_to_idx (corpusInit stop reference focus floor W).word_counts
          ((idx_to_word
            (corpusInit stop reference focus floor W).word_counts).getD k "")
        = some k) ∧
    (∀ d ∈ (corpusInit stop reference focus floor W).docs, ∀ id ∈ d.words,
      id < (corpusInit stop reference focus floor W).vocab_size ∧
      word_to_idx (corpusInit stop reference focus floor W).word_counts
          ((idx_to_word
            (corpusInit stop reference focus floor W).word_counts).getD id "")
        = some id) := by
  have hnd := nodup_keys_corpusInit stop reference focus floor W
  have hdocs := docsOK_corpusInit stop reference focus floor W
  have hlen := keys_length_vocab_size stop reference focus floor W
  refine ⟨⟨hnd, hlen⟩, ?_, ?_, ?_⟩
  · intro w k h
    unfold word_to_idx at h
    by_cases hw : w ∈ keys (corpusInit stop reference focus floor W).word_counts
    · rw [if_pos hw] at h
      injection h with h
      subst h
      exact ⟨hlen ▸ idxOf_lt_length hw, getD_idxOf hw⟩
    · rw [if_neg hw] at h
      cases h
  · intro k hk
    have hk' : k <
        (keys (corpusInit stop reference focus floor W).word_counts).length :=
      hlen ▸ hk
    have hmem := getD_mem hk'
    unfold word_to_idx idx_to_word
    rw [if_pos hmem, idxOf_getD hnd hk']
  · intro d hd id hid
    rcases hdocs d hd id hid with ⟨w, hw, rfl⟩
    refine ⟨hlen ▸ idxOf_lt_length hw, ?_⟩
    unfold idx_to_word
    rw [getD_idxOf hw]
    unfold word_to_idx
    rw [if_pos hw]

/-- Concrete instantiation of `vocab_bijective_dense_ids` on the two-line
corpus `[["a","b"],["a"]]`, checking the conjunct about the word `"a"`
(id 0). -/
theorem vocab_bijective_dense_ids_witness :
    word_to_idx (corpusInit [] [["a", "b"], ["a"]] none 0 4).word_counts "a"
      = some 0 ∧
    (0 < (corpusInit [] [["a", "b"], ["a"]] none 0 4).vocab_size ∧
      (idx_to_word
          (corpusInit [] [["a", "b"], ["a"]] none 0 4).word_counts).getD 0 ""
        = "a") :=
  ⟨by decide,
    (vocab_bijective_dense_ids [] [["a", "b"], ["a"]] none 0 4).2.1 "a" 0
      (by decide)⟩

/-- Claim C7: when both corpora are supplied, processing the focus corpus
only extends the vocabulary: every word that received id `k` during
reference processing still maps to `k` afterwards, and every newly added
word receives an id strictly greater than every reference-corpus id. -/
theorem focus_extends_vocab_ids (stop : List String)
    (reference fl : List Sentence) (floor W : ℕ) :
    (corpusInit stop reference (some fl) floor W).word_counts =
      (afterFocus stop reference fl floor).1.word_counts ∧
    (∀ w k,
      word_to_idx (afterReference stop reference floor).1.word_counts w
          = some k →
        word_to_idx (afterFocus stop reference fl floor).1.word_counts w
          = some k) ∧
    (∀ w k w' k',
      w ∉ keys (afterReference stop reference floor).1.word_counts →
      word_to_idx (afterFocus stop reference fl floor).1.word_counts w
          = some k →
      word_to_idx (afterReference stop reference floor).1.word_counts w'
          = some k' →
      k' < k) := by
  have hkeys : keys (afterFocus stop reference fl floor).1.word_counts =
      keys (afterReference stop reference floor).1.word_counts ++
        (keys (preprocess stop
            (afterReference stop reference floor).1.floorP fl).delta).filter
          (fun w => decide
            (w ∉ keys (afterReference stop reference floor).1.word_counts)) :=
    keys_processCall_eq stop (afterReference stop reference floor).1 "focus" fl
  refine ⟨rfl, ?_, ?_⟩
  · intro w k h
    unfold word_to_idx at h ⊢
    by_cases hw : w ∈ keys (afterReference stop reference floor).1.word_counts
    · rw [if_pos hw] at h
      have hw2 : w ∈ keys (afterFocus stop reference fl floor).1.word_counts := by
        rw [hkeys]
        exact List.mem_append.mpr (Or.inl hw)
      rw [if_pos hw2, hkeys, idxOf_append_left _ hw]
      exact h
    · rw [if_neg hw] at h
      cases h
  · intro w k w' k' hnot h h'
    unfold word_to_idx at h h'
    by_cases hw' : w' ∈ keys (afterReference stop reference floor).1.word_counts
    · rw [if_pos hw'] at h'
      injection h' with h'
      by_cases hw : w ∈ keys (afterFocus stop reference fl floor).1.word_counts
      · rw [if_pos hw] at h
        injection h with h
        have hk' : k' <
            (keys (afterReference stop reference floor).1.word_counts).length :=
          h' ▸ idxOf_lt_length hw'
        have hk : (keys (afterReference stop reference floor).1.word_counts).length
            ≤ k := by
          rw [← h, hkeys, idxOf_append_right _ hnot]
          omega
        omega
      · rw [if_neg hw] at h
        cases h
    · rw [if_neg hw'] at h'
      cases h'

/-- Concrete instantiation of `focus_extends_vocab_ids`: with reference
`[["a","a"]]` and focus `[["b","b","a"]]`, the word `"a"` keeps id 0 after
focus processing and the new word `"b"` receives id 1 > 0. -/
theorem focus_extends_vocab_ids_witness :
    word_to_idx (afterReference [] [["a", "a"]] 0).1.word_counts "a"
      = some 0 ∧
    word_to_idx (afterFocus [] [["a", "a"]] [["b", "b", "a"]] 0).1.word_counts
      "a" = some 0 ∧
    (0 : ℕ) < 1 :=
  ⟨by decide,
    (focus_extends_vocab_ids [] [["a", "a"]] [["b", "b", "a"]] 0 4).2.1 "a" 0
      (by decide),
    (focus_extends_vocab_ids [] [["a", "a"]] [["b", "b", "a"]] 0 4).2.2 "b" 1
      "a" 0 (by decide) (by decide) (by decide)⟩

theorem firstExceed_append_some {r c : ℚ} :
    ∀ {l : List ℚ} {j : ℕ}, firstExceed r c l = some j →
      ∀ (l' : List ℚ), firstExceed r c (l ++ l') = some j := by
  intro l
  induction l generalizing c with
  | nil => intro j h; cases h
  | cons p ps ih =>
    intro j h l'
    rw [List.cons_append]
    unfold firstExceed at h ⊢
    by_cases hc : r < c + p
    · rw [if_pos hc] at h ⊢
      exact h
    · rw [if_neg hc] at h ⊢
      rcases Option.map_eq_some'.mp h with ⟨j0, hj0, rfl⟩
      rw [ih hj0 l']
      rfl

theorem firstExceed_total {r : ℚ} :
    ∀ {l : List ℚ} {c : ℚ}, ¬(r < c) → r < c + l.sum →
      ∃ j, firstExceed r c l = some j ∧ j < l.length := by
  intro l
  induction l with
  | nil =>
    intro c h1 h2
    rw [List.sum_nil, add_zero] at h2
    exact absurd h2 h1
  | cons p ps ih =>
    intro c h1 h2
    by_cases hc : r < c + p
    · exact ⟨0, by rw [show firstExceed r c (p :: ps)
        = if r < c + p then some 0
          else (firstExceed r (c + p) ps).map (· + 1) from rfl, if_pos hc],
        Nat.succ_pos _⟩
    · rw [List.sum_cons, ← add_assoc] at h2
      rcases ih hc h2 with ⟨j, hj, hlt⟩
      refine ⟨j + 1, ?_, by simpa using Nat.succ_lt_succ hlt⟩
      rw [show firstExceed r c (p :: ps)
        = if r < c + p then some 0
          else (firstExceed r (c + p) ps).map (· + 1) from rfl, if_neg hc, hj]
      rfl

theorem priorList_length (alpha : ℚ) (partition : List (List ℕ)) (N : ℕ) :
    (priorList alpha partition N).length = partition.length :=
  List.length_map _ _

theorem crpStep_isSome {alpha r : ℚ} {partition : List (List ℕ)} {N tok : ℕ}
    (hr : 0 ≤ r) (hne : r ≠ (priorList alpha partition N).sum) :
    ∃ p, crpStep alpha partition N tok r = some p := by
  unfold crpStep
  by_cases hlt : (priorList alpha partition N).sum < r
  · rw [if_pos hlt]
    exact ⟨_, rfl⟩
  · rw [if_neg hlt]
    have hrs : r < (priorList alpha partition N).sum := by
      rcases lt_or_eq_of_le (not_lt.mp hlt) with h | h
      · exact h
      · exact absurd h hne
    have h0 : ¬ r < (0 : ℚ) := not_lt.mpr hr
    have h2 : r < 0 + (priorList alpha partition N).sum := by
      rw [zero_add]; exact hrs
    rcases firstExceed_total h0 h2 with ⟨j, hj, hlt'⟩
    rw [firstExceed_append_some hj]
    rw [priorList_length] at hlt'
    refine ⟨partition.set j (partition[j] ++ [tok]), ?_⟩
    show (if h : j < partition.length
        then some (partition.set j (partition[j] ++ [tok])) else none) = _
    rw [dif_pos hlt']

theorem clustersSum_append (partition : List (List ℕ)) (t : ℕ) :
    clustersSum (partition ++ [[t]]) = clustersSum partition + {t} := by
  simp [clustersSum]

theorem clustersSum_cons (cl : List ℕ) (rest : List (List ℕ)) :
    clustersSum (cl :: rest) = (cl : Multiset ℕ) + clustersSum rest := by
  simp [clustersSum]

theorem clustersSum_set :
    ∀ (partition : List (List ℕ)) (j : ℕ) (hj : j < partition.length)
      (t : ℕ),
      clustersSum (partition.set j (partition[j] ++ [t])) =
        clustersSum partition + {t} := by
  intro partition
  induction partition with
  | nil => intro j hj; cases hj
  | cons cl rest ih =>
    intro j hj t
    cases j with
    | zero =>
      rw [List.getElem_cons_zero, List.set_cons_zero, clustersSum_cons,
        clustersSum_cons]
      rw [show ((cl ++ [t] : List ℕ) : Multiset ℕ)
          = (cl : Multiset ℕ) + (([t] : List ℕ) : Multiset ℕ) from
        (Multiset.coe_add cl [t]).symm]
      simp only [Multiset.coe_singleton]
      abel
    | succ j =>
      have h' : j < rest.length := by simpa using hj
      rw [List.getElem_cons_succ, List.set_cons_succ, clustersSum_cons,
        clustersSum_cons, ih j h' t]
      rw [add_assoc]

theorem crpStep_sum {alpha r : ℚ} {partition p : List (List ℕ)} {N tok : ℕ}
    (h : crpStep alpha partition N tok r = some p) :
    clustersSum p = clustersSum partition + {tok} := by
  unfold crpStep at h
  dsimp only at h
  split at h
  · injection h with h
    subst h
    exact clustersSum_append partition tok
  · split at h
    · cases h
    · split at h
      · injection h with h
        subst h
        exact clustersSum_set partition _ ‹_› tok
      · cases h

theorem init_partition_goodDraws (alpha : ℚ) :
    ∀ (words : List ℕ) (draws : List ℚ) (part : List (List ℕ)) (N : ℕ),
      goodDraws alpha part N words draws = true →
      ∃ p, init_partition alpha part N words draws = some p ∧
        clustersSum p = clustersSum part + (words : Multiset ℕ) := by
  intro words
  induction words with
  | nil =>
    intro draws part N h
    cases draws with
    | nil => exact ⟨part, rfl, by simp⟩
    | cons r rs => simp [goodDraws] at h
  | cons tok toks ih =>
    intro draws part N h
    cases draws with
    | nil => simp [goodDraws] at h
    | cons r rs =>
      unfold goodDraws at h
      simp only [Bool.and_eq_true, decide_eq_true_eq] at h
      obtain ⟨⟨⟨hr0, hr1⟩, hne⟩, hrec⟩ := h
      rcases crpStep_isSome hr0 hne with ⟨p0, hp0⟩
      rw [hp0, Option.getD_some] at hrec
      rcases ih rs p0 (N + 1) hrec with ⟨p, hp, hsum⟩
      refine ⟨p, ?_, ?_⟩
      · show init_partition alpha part N (tok :: toks) (r :: rs) = some p
        unfold init_partition
        rw [hp0]
        exact hp
      · rw [hsum, crpStep_sum hp0, add_assoc, Multiset.singleton_add,
          ← Multiset.cons_coe]

/-- Claim C1 (counterexample): the CRP initializer does not place every
token for every draw `r ∈ [0, 1)`.  With `alpha = 1 > 0`, a one-token
document and the draw `r = 0`: the new-cluster test `0 > sum([]) = 0`
fails, so the "otherwise" branch walks the extended prior list `[1.0]`,
breaks at its last slot — index `len(partition) = 0` of the *empty*
partition — and raises `IndexError` (modeled as `none`): the token is
assigned to no cluster.  The same overrun happens whenever the draw equals
the existing-cluster prior mass exactly. -/
theorem init_partition_boundary_draw_crash :
    ((0 : ℚ) ≤ 0 ∧ (0 : ℚ) < 1) ∧
    init_partition 1 [] 0 [0] [0] = none := by
  refine ⟨⟨le_refl 0, by norm_num⟩, ?_⟩
  norm_num [init_partition, crpStep, priorList, firstExceed]

/-- Claim C1 (amended): for every document, every `alpha > 0` and every
per-token draw sequence in `[0, 1)` in which no draw exactly equals the
total existing-cluster prior mass at its decision point (`goodDraws` —
the boundary case on which the lookup overruns, see the counterexample),
`Document.init_partition` completes and places every one of the `N` tokens
in exactly one cluster: the multiset union of the clusters recovers the
document's full token sequence, so the clusters are disjoint occurrence
sets partitioning it. -/
theorem init_partition_partitions_tokens (alpha : ℚ) (words : List ℕ)
    (draws : List ℚ) (halpha : 0 < alpha)
    (hg : goodDraws alpha [] 0 words draws = true) :
    ∃ p, init_partition alpha [] 0 words draws = some p ∧
      clustersSum p = (words : Multiset ℕ) := by
  rcases init_partition_goodDraws alpha words draws [] 0 hg with ⟨p, hp, hsum⟩
  refine ⟨p, hp, ?_⟩
  rw [hsum]
  simp [clustersSum]

/-- Concrete instantiation of `init_partition_partitions_tokens`:
`alpha = 1`, document `[7, 7, 9]`, draws `[1/2, 1/4, 3/4]` (the run builds
the partition `[[7, 7], [9]]`, whose clusters exactly cover the tokens). -/
theorem init_partition_partitions_tokens_witness :
    (0 : ℚ) < 1 ∧
    goodDraws 1 [] 0 [7, 7, 9] [1 / 2, 1 / 4, 3 / 4] = true ∧
    ∃ p, init_partition 1 [] 0 [7, 7, 9] [1 / 2, 1 / 4, 3 / 4] = some p ∧
      clustersSum p = (([7, 7, 9] : List ℕ) : Multiset ℕ) :=
  ⟨by norm_num, by norm_num [goodDraws, crpStep, priorList, firstExceed],
    init_partition_partitions_tokens 1 [7, 7, 9] [1 / 2, 1 / 4, 3 / 4]
      (by norm_num)
      (by norm_num [goodDraws, crpStep, priorList, firstExceed])⟩

theorem word_to_idx_lt {wc : Counter} {w : String} {k : ℕ}
    (h : word_to_idx wc w = some k) : k < (keys wc).length := by
  unfold word_to_idx at h
  by_cases hw : w ∈ keys wc
  · rw [if_pos hw] at h
    injection h with h
    exact h ▸ idxOf_lt_length hw
  · rw [if_neg hw] at h
    cases h

theorem coocPairs_mem_lt {wc : Counter} {W : ℕ} {corpus : List Sentence}
    {q : ℕ × ℕ} (h : q ∈ coocPairs (word_to_idx wc) W corpus) :
    q.1 < (keys wc).length ∧ q.2 < (keys wc).length := by
  unfold coocPairs at h
  rcases List.mem_flatMap.mp h with ⟨sent, hsent, h⟩
  unfold windowPairs at h
  rcases List.mem_flatMap.mp h with ⟨j, hj, h⟩
  dsimp only at h
  cases hk : word_to_idx wc (sent.getD j "") with
  | none =>
    rw [hk] at h
    cases h
  | some b =>
    rw [hk] at h
    rcases List.mem_filterMap.mp h with ⟨l, hl, hsome⟩
    by_cases hlk : l ≠ sent.getD j ""
    · rw [if_pos hlk] at hsome
      cases ha : word_to_idx wc l with
      | none =>
        rw [ha] at hsome
        cases hsome
      | some a =>
        rw [ha] at hsome
        injection hsome with hsome
        subst hsome
        exact ⟨word_to_idx_lt ha, word_to_idx_lt hk⟩
    · rw [if_neg hlk] at hsome
      cases hsome

theorem collocations_nonzero_bounds {stop : List String}
    {reference : List Sentence} {focus : Option (List Sentence)}
    {floor W i j : ℕ}
    (h : (corpusInit stop reference focus floor W).collocations i j ≠ 0) :
    i < (corpusInit stop reference focus floor W).vocab_size ∧
    j < (corpusInit stop reference focus floor W).vocab_size := by
  rw [corpus_collocations_eq, cooccurences_count] at h
  have hmem : (i, j) ∈ coocPairs
      (word_to_idx (corpusInit stop reference focus floor W).word_counts) W
      (corpusInit stop reference focus floor W).sentences := by
    by_contra hno
    exact h (List.count_eq_zero.mpr hno)
  have hb := coocPairs_mem_lt hmem
  have hlen := keys_length_vocab_size stop reference focus floor W
  exact ⟨hlen ▸ hb.1, hlen ▸ hb.2⟩

theorem coocTotal_ge_cell {stop : List String} {reference : List Sentence}
    {focus : Option (List Sentence)} {floor W i j : ℕ}
    (hi : i < (corpusInit stop reference focus floor W).vocab_size)
    (hj : j < (corpusInit stop reference focus floor W).vocab_size) :
    ((corpusInit stop reference focus floor W).collocations i j : ℚ) ≤
      coocTotal (corpusInit stop reference focus floor W) := by
  unfold coocTotal
  have h1 : ((corpusInit stop reference focus floor W).collocations i j : ℚ) ≤
      ∑ y ∈ Finset.range (corpusInit stop reference focus floor W).vocab_size,
        ((corpusInit stop reference focus floor W).collocations i y : ℚ) :=
    @Finset.single_le_sum ℕ ℚ _
      (fun y => ((corpusInit stop reference focus floor W).collocations i y : ℚ))
      (Finset.range (corpusInit stop reference focus floor W).vocab_size)
      (fun y _ => Nat.cast_nonneg _) j (Finset.mem_range.mpr hj)
  have h2 : ∑ y ∈ Finset.range (corpusInit stop reference focus floor W).vocab_size,
        ((corpusInit stop reference focus floor W).collocations i y : ℚ) ≤
      ∑ x ∈ Finset.range (corpusInit stop reference focus floor W).vocab_size,
        ∑ y ∈ Finset.range (corpusInit stop reference focus floor W).vocab_size,
          ((corpusInit stop reference focus floor W).collocations x y : ℚ) :=
    @Finset.single_le_sum ℕ ℚ _
      (fun x => ∑ y ∈ Finset.range
          (corpusInit stop reference focus floor W).vocab_size,
        ((corpusInit stop reference focus floor W).collocations x y : ℚ))
      (Finset.range (corpusInit stop reference focus floor W).vocab_size)
      (fun x _ => Finset.sum_nonneg fun y _ => Nat.cast_nonneg _) i
      (Finset.mem_range.mpr hi)
  exact le_trans h1 h2

/-- Claim C9 (amended): for every nonzero cell `(i, j)` of the stored
co-occurrence matrix, the PPMI value computed by `Corpus.collocations` is
nonnegative; it equals `max(0, log2(joint / (p_i * p_j)))` — with
`joint = f/total`, `p_i = f*count(word_i)/total`,
`p_j = f*count(word_j)/total` — when `p_i * p_j > 0` and is `0` otherwise;
and it is `0` exactly when the raw log ratio is *nonpositive* (`≤ 0`, not
merely negative: the clip also lands on `0` when the ratio is exactly 1,
see the counterexample) or the denominator is not positive — equivalently,
when the denominator is positive, exactly when the probability ratio is at
most 1. -/
theorem ppmi_nonneg_zero_iff (stop : List String) (reference : List Sentence)
    (focus : Option (List Sentence)) (floor W i j : ℕ)
    (hnz : (corpusInit stop reference focus floor W).collocations i j ≠ 0) :
    0 ≤ ppmiMatrix (corpusInit stop reference focus floor W) i j ∧
    (0 < cellProbI (corpusInit stop reference focus floor W) i j *
        cellProbJ (corpusInit stop reference focus floor W) i j →
      ppmiMatrix (corpusInit stop reference focus floor W) i j =
        max 0 (Real.logb 2
          ((cellJoint (corpusInit stop reference focus floor W) i j /
            (cellProbI (corpusInit stop reference focus floor W) i j *
              cellProbJ (corpusInit stop reference focus floor W) i j) : ℚ)
            : ℝ))) ∧
    (¬ 0 < cellProbI (corpusInit stop reference focus floor W) i j *
        cellProbJ (corpusInit stop reference focus floor W) i j →
      ppmiMatrix (corpusInit stop reference focus floor W) i j = 0) ∧
    (ppmiMatrix (corpusInit stop reference focus floor W) i j = 0 ↔
      (¬ 0 < cellProbI (corpusInit stop reference focus floor W) i j *
          cellProbJ (corpusInit stop reference focus floor W) i j ∨
        Real.logb 2
          ((cellJoint (corpusInit stop reference focus floor W) i j /
            (cellProbI (corpusInit stop reference focus floor W) i j *
              cellProbJ (corpusInit stop reference focus floor W) i j) : ℚ)
            : ℝ) ≤ 0)) ∧
    (0 < cellProbI (corpusInit stop reference focus floor W) i j *
        cellProbJ (corpusInit stop reference focus floor W) i j →
      (ppmiMatrix (corpusInit stop reference focus floor W) i j = 0 ↔
        cellJoint (corpusInit stop reference focus floor W) i j /
          (cellProbI (corpusInit stop reference focus floor W) i j *
            cellProbJ (corpusInit stop reference focus floor W) i j) ≤ 1)) := by
  have hbounds := collocations_nonzero_bounds hnz
  have hf : (0 : ℚ) <
      ((corpusInit stop reference focus floor W).collocations i j : ℚ) := by
    exact_mod_cast Nat.pos_of_ne_zero hnz
  have hT : (0 : ℚ) < coocTotal (corpusInit stop reference focus floor W) :=
    lt_of_lt_of_le hf (coocTotal_ge_cell hbounds.1 hbounds.2)
  have hjoint : 0 < cellJoint (corpusInit stop reference focus floor W) i j :=
    div_pos hf hT
  unfold ppmiMatrix
  rw [if_pos hnz]
  by_cases hden : 0 < cellProbI (corpusInit stop reference focus floor W) i j *
      cellProbJ (corpusInit stop reference focus floor W) i j
  · rw [if_pos hden]
    have hratio : (0 : ℚ) <
        cellJoint (corpusInit stop reference focus floor W) i j /
          (cellProbI (corpusInit stop reference focus floor W) i j *
            cellProbJ (corpusInit stop reference focus floor W) i j) :=
      div_pos hjoint hden
    have hratioR : (0 : ℝ) <
        ((cellJoint (corpusInit stop reference focus floor W) i j /
          (cellProbI (corpusInit stop reference focus floor W) i j *
            cellProbJ (corpusInit stop reference focus floor W) i j) : ℚ) : ℝ) := by
      exact_mod_cast hratio
    have hlogiff := Real.logb_nonpos_iff (by norm_num : (1:ℝ) < 2) hratioR
    refine ⟨le_max_left _ _, fun _ => rfl, fun hc => absurd hden hc, ?_, ?_⟩
    · constructor
      · intro hmax
        exact Or.inr (max_eq_left_iff.mp hmax)
      · rintro (hc | hle)
        · exact absurd hden hc
        · exact max_eq_left_iff.mpr hle
    · intro _
      constructor
      · intro hmax
        have := hlogiff.mp (max_eq_left_iff.mp hmax)
        exact_mod_cast this
      · intro hle
        refine max_eq_left_iff.mpr (hlogiff.mpr ?_)
        exact_mod_cast hle
  · rw [if_neg hden]
    exact ⟨le_refl 0, fun hc => absurd hc hden, fun _ => rfl,
      ⟨fun _ => Or.inl hden, fun _ => rfl⟩, fun hc => absurd hc hden⟩

/-- Claim C9 (counterexample): on the one-sentence corpus `[A, B]` with
`floor = 0` and window 10, the single nonzero cell `(0, 1)` has
`f = total = 1` and unit word counts, so the denominator `p_i * p_j = 1`
is positive and the probability ratio is exactly 1: the raw log ratio
`log2 1 = 0` is *not* negative, yet the computed PPMI value is 0 — the
claim's "0 exactly when the raw log ratio is negative or the denominator
is not positive" fails at this input. -/
theorem ppmi_zero_cell_with_zero_log_ratio :
    (corpusInit [] [["A", "B"]] none 0 10).collocations 0 1 = 1 ∧
    coocTotal (corpusInit [] [["A", "B"]] none 0 10) = 1 ∧
    cellProbI (corpusInit [] [["A", "B"]] none 0 10) 0 1 *
      cellProbJ (corpusInit [] [["A", "B"]] none 0 10) 0 1 = 1 ∧
    cellJoint (corpusInit [] [["A", "B"]] none 0 10) 0 1 = 1 ∧
    ppmiMatrix (corpusInit [] [["A", "B"]] none 0 10) 0 1 = 0 ∧
    (0 : ℚ) < 1 ∧ ¬ Real.logb 2 ((1 : ℚ) : ℝ) < 0 := by
  have h1 : (corpusInit [] [["A", "B"]] none 0 10).collocations 0 1 = 1 := by
    decide
  have hT : coocTotal (corpusInit [] [["A", "B"]] none 0 10) = 1 := by
    have hv : (corpusInit [] [["A", "B"]] none 0 10).vocab_size = 2 := by decide
    norm_num [coocTotal, hv, Finset.sum_range_succ]
    norm_num [show (corpusInit [] [["A","B"]] none 0 10).collocations 0 0 = 0 from by decide,
      show (corpusInit [] [["A","B"]] none 0 10).collocations 0 1 = 1 from by decide,
      show (corpusInit [] [["A","B"]] none 0 10).collocations 1 0 = 0 from by decide,
      show (corpusInit [] [["A","B"]] none 0 10).collocations 1 1 = 0 from by decide]
  have hcA : cellCount (corpusInit [] [["A", "B"]] none 0 10) 0 = 1 := by
    have : countOf (corpusInit [] [["A", "B"]] none 0 10).word_counts
        ((idx_to_word (corpusInit [] [["A", "B"]] none 0 10).word_counts).getD 0 "")
        = 1 := by decide
    unfold cellCount
    rw [this]
    norm_num
  have hcB : cellCount (corpusInit [] [["A", "B"]] none 0 10) 1 = 1 := by
    have : countOf (corpusInit [] [["A", "B"]] none 0 10).word_counts
        ((idx_to_word (corpusInit [] [["A", "B"]] none 0 10).word_counts).getD 1 "")
        = 1 := by decide
    unfold cellCount
    rw [this]
    norm_num
  have hPI : cellProbI (corpusInit [] [["A", "B"]] none 0 10) 0 1 = 1 := by
    unfold cellProbI
    rw [h1, hcA, hT]
    norm_num
  have hPJ : cellProbJ (corpusInit [] [["A", "B"]] none 0 10) 0 1 = 1 := by
    unfold cellProbJ
    rw [h1, hcB, hT]
    norm_num
  have hJ : cellJoint (corpusInit [] [["A", "B"]] none 0 10) 0 1 = 1 := by
    unfold cellJoint
    rw [h1, hT]
    norm_num
  refine ⟨h1, hT, by rw [hPI, hPJ]; norm_num, hJ, ?_, by norm_num,
    by norm_num [Real.logb_one]⟩
  unfold ppmiMatrix
  rw [if_pos (by rw [h1]; norm_num : (corpusInit [] [["A", "B"]] none 0 10).collocations 0 1 ≠ 0)]
  rw [if_pos (by rw [hPI, hPJ]; norm_num : (0:ℚ) < cellProbI (corpusInit [] [["A", "B"]] none 0 10) 0 1 * cellProbJ (corpusInit [] [["A", "B"]] none 0 10) 0 1)]
  rw [hJ, hPI, hPJ]
  norm_num [Real.logb_one]

/-- Concrete instantiation of `ppmi_nonneg_zero_iff` at the nonzero cell
`(0, 1)` of the `[A, B]` corpus. -/
theorem ppmi_nonneg_zero_iff_witness :
    (corpusInit [] [["A", "B"]] none 0 10).collocations 0 1 ≠ 0 ∧
    0 ≤ ppmiMatrix (corpusInit [] [["A", "B"]] none 0 10) 0 1 :=
  ⟨by decide, (ppmi_nonneg_zero_iff [] [["A", "B"]] none 0 10 0 1 (by decide)).1⟩
